import Mathlib

/-!
Verification of the quality-scoring and incremental-promotion engine of the
Real-Time-Analytics-Data-Quality-Platform repository.

The definitions below are a shallow embedding of `src/workflows/quality.py`
and `src/workflows/historical.py`.  Machine floats holding integral penalty
values are modelled as naturals; other numeric record values are modelled as
rationals; timestamps are seconds since the epoch as integers.
-/

namespace BikeDQ

/-- Quality band, from `_score_band` in `src/workflows/quality.py`. -/
inductive Band where
  | EXCELLENT
  | GOOD
  | FAIR
  | POOR
deriving DecidableEq, Repr

/-- `_score_band(score)`: inclusive lower-bound thresholds evaluated top-down
(`score >= 90` EXCELLENT, `>= 75` GOOD, `>= 60` FAIR, else POOR). -/
def scoreBand (score : ℚ) : Band :=
  if score ≥ 90 then .EXCELLENT
  else if score ≥ 75 then .GOOD
  else if score ≥ 60 then .FAIR
  else .POOR

/-- Ordinal rank of a band: POOR < FAIR < GOOD < EXCELLENT. -/
def Band.rank : Band → ℕ
  | .POOR => 0
  | .FAIR => 1
  | .GOOD => 2
  | .EXCELLENT => 3

/-- Outcome of reading one field of a record, mirroring the three-way
distinction `_score_row` makes per required field: `_is_missing` holds
(missing), the typed parse/coercion fails (invalid: `_require_string`,
`_parse_datetime`, `_coerce_number`), or a typed value is obtained. -/
inductive Cell (α : Type) where
  | missing
  | invalid
  | value (a : α)
deriving DecidableEq, Repr

def Cell.toOption : Cell α → Option α
  | .value a => some a
  | _ => none

def Cell.isMissing : Cell α → Bool
  | .missing => true
  | _ => false

def Cell.isInvalid : Cell α → Bool
  | .invalid => true
  | _ => false

/-- One input record as seen by `_score_row`: the ten `REQUIRED_FIELDS`
at parse-outcome level (string fields carry no payload, datetime fields an
epoch second, numeric fields a rational), plus the number of columns not in
`ALLOWED_FIELDS` (the `unexpected_fields` count). -/
structure TripRow where
  trip_id : Cell Unit
  bike_id : Cell ℚ
  start_time : Cell ℤ
  end_time : Cell ℤ
  start_station_id : Cell ℚ
  end_station_id : Cell ℚ
  rider_age : Cell ℚ
  trip_duration : Cell ℚ
  bike_type : Cell Unit
  member_casual : Cell Unit
  unexpectedFields : ℕ
deriving DecidableEq, Repr

def b2n (b : Bool) : ℕ := if b then 1 else 0

/-- Number of `REQUIRED_FIELDS` for which `_is_missing(row.get(field))` holds
(`missing_fields` in `_score_row`), in `REQUIRED_FIELDS` order. -/
def missingCount (r : TripRow) : ℕ :=
  b2n r.trip_id.isMissing + b2n r.bike_id.isMissing + b2n r.start_time.isMissing +
    b2n r.end_time.isMissing + b2n r.start_station_id.isMissing +
    b2n r.end_station_id.isMissing + b2n r.rider_age.isMissing +
    b2n r.trip_duration.isMissing + b2n r.bike_type.isMissing +
    b2n r.member_casual.isMissing

/-- Number of non-missing required fields whose typed check fails
(`invalid_fields` in `_score_row`). -/
def invalidCount (r : TripRow) : ℕ :=
  b2n r.trip_id.isInvalid + b2n r.bike_id.isInvalid + b2n r.start_time.isInvalid +
    b2n r.end_time.isInvalid + b2n r.start_station_id.isInvalid +
    b2n r.end_station_id.isInvalid + b2n r.rider_age.isInvalid +
    b2n r.trip_duration.isInvalid + b2n r.bike_type.isInvalid +
    b2n r.member_casual.isInvalid

/-- Schema penalty pool of `_score_row`: `10` per missing field, `5` per
invalid field, `2` per unexpected column, capped at `SCHEMA_MAX_DEDUCTION = 40`. -/
def schemaPenalty (r : TripRow) : ℕ :=
  min (10 * missingCount r + 5 * invalidCount r + 2 * r.unexpectedFields) 40

/-- Station reference lookup: station id to (lat, lon), from
`_load_station_lookup`. -/
abbrev StationLookup : Type := List (ℤ × ℚ × ℚ)

def lookupStation (stations : StationLookup) (i : ℤ) : Option (ℚ × ℚ) :=
  (List.find? (fun s => decide (s.1 = i)) stations).map (fun s => s.2)

/-- Python `int(value)` on a finite float: truncation toward zero. -/
def pyInt (q : ℚ) : ℤ := if 0 ≤ q then ⌊q⌋ else ⌈q⌉

/-- Validity penalty pool of `_score_row`: `25` if `start_time >= end_time`,
`15` if declared duration deviates from `end - start` by more than 60 s
(only when a declared duration is present; otherwise the delta becomes the
duration and no deviation penalty can fire), `20` if rider age outside
[16, 100], `10` per endpoint station id absent from a non-empty station
lookup; capped at `VALIDITY_MAX_DEDUCTION = 40`. -/
def validityPenalty (stations : StationLookup) (r : TripRow) : ℕ :=
  let pTime : ℕ :=
    match r.start_time.toOption, r.end_time.toOption with
    | some s, some e =>
        (if s ≥ e then 25 else 0) +
          (match r.trip_duration.toOption with
           | some d => if |((e - s : ℤ) : ℚ) - d| > 60 then 15 else 0
           | none => 0)
    | _, _ => 0
  let pAge : ℕ :=
    match r.rider_age.toOption with
    | some a => if ¬ (16 ≤ a ∧ a ≤ 100) then 20 else 0
    | none => 0
  let pStation : Option ℚ → ℕ := fun v =>
    match v with
    | some q => if stations ≠ [] ∧ lookupStation stations (pyInt q) = none then 10 else 0
    | none => 0
  min (pTime + pAge + pStation r.start_station_id.toOption +
        pStation r.end_station_id.toOption) 40

/-- The `duration_value` in effect at the business block of `_score_row`:
when both timestamps parsed and no declared duration was coerced, the
timestamp delta is substituted. -/
def effectiveDuration (r : TripRow) : Option ℚ :=
  match r.start_time.toOption, r.end_time.toOption with
  | some s, some e =>
      match r.trip_duration.toOption with
      | some d => some d
      | none => some ((e - s : ℤ) : ℚ)
  | _, _ => r.trip_duration.toOption

/-- `_estimate_speed_kmh(row, stations)`: both endpoint stations must resolve
to coordinates and the declared duration must be a positive number; the
great-circle distance computation (`_haversine`, floating-point
trigonometry) is abstracted as the parameter `dist`. -/
def estimateSpeedKmh (dist : ℚ × ℚ → ℚ × ℚ → ℚ) (stations : StationLookup)
    (r : TripRow) : Option ℚ :=
  let coord : Cell ℚ → Option (ℚ × ℚ) := fun c =>
    match c.toOption with
    | some q => lookupStation stations (pyInt q)
    | none => none
  match coord r.start_station_id, coord r.end_station_id with
  | some c1, some c2 =>
      match r.trip_duration.toOption with
      | some d =>
          if d = 0 ∨ d ≤ 0 then none
          else
            let hours := d / 3600
            if hours = 0 then none else some (dist c1 c2 / hours)
      | none => none
  | _, _ => none

/-- Business penalty pool of `_score_row`: `15` if the effective duration is
outside [`MIN_TRIP_DURATION`, `MAX_TRIP_DURATION`] = [60, 86400], `5` for a
round trip (equal stations) longer than 3600 s, `10` if the estimated speed
is truthy and exceeds `MAX_SPEED_KMH = 30`; capped at
`BUSINESS_MAX_DEDUCTION = 20`. -/
def businessPenalty (dist : ℚ × ℚ → ℚ × ℚ → ℚ) (stations : StationLookup)
    (r : TripRow) : ℕ :=
  let pDur : ℕ :=
    match effectiveDuration r with
    | some d =>
        (if d < 60 ∨ d > 86400 then 15 else 0) +
          (match r.start_station_id.toOption, r.end_station_id.toOption with
           | some s, some e => if pyInt s = pyInt e ∧ d > 3600 then 5 else 0
           | _, _ => 0)
    | none => 0
  let pSpeed : ℕ :=
    match estimateSpeedKmh dist stations r with
    | some v => if v ≠ 0 ∧ v > 30 then 10 else 0
    | none => 0
  min (pDur + pSpeed) 20

/-- `max(BASE_SCORE - total_deductions, 0) / BASE_SCORE` with
`BASE_SCORE = 100`.  (`round(·, 4)` is the identity here: the value is an
integer multiple of 1/100.) -/
def normalizedScore (total : ℕ) : ℚ := ((max (100 - (total : ℤ)) 0 : ℤ) : ℚ) / 100

/-- The tuple `_score_row` returns per record. -/
structure ScoreResult where
  qualityScore : ℚ
  deductions : ℕ
  band : Band
  schemaP : ℕ
  validityP : ℕ
  businessP : ℕ
deriving DecidableEq, Repr

/-- `_score_row(row)` from `score_dataset`: the three capped penalty pools,
their sum, the normalized score and the band of `score * 100`. -/
def scoreRow (dist : ℚ × ℚ → ℚ × ℚ → ℚ) (stations : StationLookup)
    (r : TripRow) : ScoreResult :=
  let sp := schemaPenalty r
  let vp := validityPenalty stations r
  let bp := businessPenalty dist stations r
  let total := sp + vp + bp
  let score := normalizedScore total
  ⟨score, total, scoreBand (score * 100), sp, vp, bp⟩

/-- C1: for every record scored by `score_dataset`, the schema pool is at
most 40, the validity pool at most 40, the business pool at most 20, total
deductions at most 100, and the quality score lies in [0, 1]. -/
theorem C1_penalty_caps (dist : ℚ × ℚ → ℚ × ℚ → ℚ) (stations : StationLookup)
    (r : TripRow) :
    (scoreRow dist stations r).schemaP ≤ 40 ∧
    (scoreRow dist stations r).validityP ≤ 40 ∧
    (scoreRow dist stations r).businessP ≤ 20 ∧
    (scoreRow dist stations r).deductions ≤ 100 ∧
    0 ≤ (scoreRow dist stations r).qualityScore ∧
    (scoreRow dist stations r).qualityScore ≤ 1 := by
  have hs : schemaPenalty r ≤ 40 := Nat.min_le_right _ _
  have hv : validityPenalty stations r ≤ 40 := Nat.min_le_right _ _
  have hb : businessPenalty dist stations r ≤ 20 := Nat.min_le_right _ _
  have htot : schemaPenalty r + validityPenalty stations r +
      businessPenalty dist stations r ≤ 100 := by omega
  refine ⟨hs, hv, hb, htot, ?_, ?_⟩
  · show (0 : ℚ) ≤ normalizedScore _
    unfold normalizedScore
    have h0 : (0 : ℤ) ≤ max (100 - ((schemaPenalty r + validityPenalty stations r +
        businessPenalty dist stations r : ℕ) : ℤ)) 0 := le_max_right _ _
    positivity
  · show normalizedScore _ ≤ 1
    unfold normalizedScore
    rw [div_le_one (by norm_num)]
    have h1 : max (100 - ((schemaPenalty r + validityPenalty stations r +
        businessPenalty dist stations r : ℕ) : ℤ)) 0 ≤ 100 := by
      apply max_le <;> omega
    exact_mod_cast h1

/-- C2: banding is total (the four threshold characterizations partition
[0, 100], with inclusive lower bounds evaluated top-down) and monotone: a
higher score never gets a lower band, hence raising a record's deductions
never raises its band. -/
theorem C2_band_total_monotone (x y : ℚ) (d d' : ℕ)
    (hx0 : 0 ≤ x) (hx1 : x ≤ 100) :
    ((scoreBand x = .EXCELLENT ↔ 90 ≤ x) ∧
     (scoreBand x = .GOOD ↔ 75 ≤ x ∧ x < 90) ∧
     (scoreBand x = .FAIR ↔ 60 ≤ x ∧ x < 75) ∧
     (scoreBand x = .POOR ↔ x < 60)) ∧
    (x ≤ y → (scoreBand x).rank ≤ (scoreBand y).rank) ∧
    (d ≤ d' →
      (scoreBand (normalizedScore d' * 100)).rank ≤
        (scoreBand (normalizedScore d * 100)).rank) := by
  have hmono : ∀ a b : ℚ, a ≤ b → (scoreBand a).rank ≤ (scoreBand b).rank := by
    intro a b hab
    unfold scoreBand
    split_ifs <;> simp [Band.rank] <;> linarith
  refine ⟨⟨?_, ?_, ?_, ?_⟩, hmono x y, ?_⟩
  · unfold scoreBand
    split_ifs with h1 h2 h3 <;> simp_all <;>
      first | (constructor <;> linarith) | (intros; linarith) | linarith
  · unfold scoreBand
    split_ifs with h1 h2 h3 <;> simp_all <;>
      first | (constructor <;> linarith) | (intros; linarith) | linarith
  · unfold scoreBand
    split_ifs with h1 h2 h3 <;> simp_all <;>
      first | (constructor <;> linarith) | (intros; linarith) | linarith
  · unfold scoreBand
    split_ifs with h1 h2 h3 <;> simp_all <;>
      first | (constructor <;> linarith) | (intros; linarith) | linarith
  · intro hdd
    apply hmono
    unfold normalizedScore
    have : max (100 - (d' : ℤ)) 0 ≤ max (100 - (d : ℤ)) 0 := by
      apply max_le
      · exact le_max_of_le_left (by omega)
      · exact le_max_right _ _
    have hq : ((max (100 - (d' : ℤ)) 0 : ℤ) : ℚ) ≤ ((max (100 - (d : ℤ)) 0 : ℤ) : ℚ) := by
      exact_mod_cast this
    have h100 : (0 : ℚ) < 100 := by norm_num
    calc ((max (100 - (d' : ℤ)) 0 : ℤ) : ℚ) / 100 * 100
        = ((max (100 - (d' : ℤ)) 0 : ℤ) : ℚ) := by field_simp
      _ ≤ ((max (100 - (d : ℤ)) 0 : ℤ) : ℚ) := hq
      _ = ((max (100 - (d : ℤ)) 0 : ℤ) : ℚ) / 100 * 100 := by field_simp

/-! ## Incremental discovery (`discover_new_data`, `src/workflows/quality.py`) -/

/-- One listed bronze object: key and `LastModified` (epoch seconds, UTC). -/
structure S3Object where
  key : String
  lastModified : ℤ
deriving DecidableEq, Repr

/-- Python `str.endswith`, computed on the character list. -/
def strEndsWith (s suf : String) : Bool :=
  s.data.reverse.take suf.data.length == suf.data.reverse

/-- Python `str.startswith`, computed on the character list. -/
def strStartsWith (s pre : String) : Bool :=
  s.data.take pre.data.length == pre.data

/-- The per-key filter of `discover_new_data`: only `.parquet` keys outside
the `historical/` staging area. -/
def objFilter (o : S3Object) : Bool :=
  strEndsWith o.key ".parquet" && !(strStartsWith o.key "historical/")

/-- `is_new` in `discover_new_data` for an existing checkpoint `c`:
`modified > c.last_modified or (modified == c.last_modified and key > c.last_key)`. -/
def isNewer (c : ℤ × String) (modified : ℤ) (key : String) : Bool :=
  decide (modified > c.1) || (decide (modified = c.1) && decide (key > c.2))

/-- Strict lexicographic order on `(last_modified, key)` pairs. -/
def pairLT (a b : ℤ × String) : Prop := a.1 < b.1 ∨ (a.1 = b.1 ∧ a.2 < b.2)

/-- Non-strict lexicographic order on `(last_modified, key)` pairs, the sort
key `lambda item: (item[0], item[1])` of `discover_new_data`. -/
def pairLE (a b : ℤ × String) : Prop := a.1 < b.1 ∨ (a.1 = b.1 ∧ a.2 ≤ b.2)

instance : DecidableRel pairLT := fun a b =>
  inferInstanceAs (Decidable (a.1 < b.1 ∨ (a.1 = b.1 ∧ a.2 < b.2)))

instance : DecidableRel pairLE := fun a b =>
  inferInstanceAs (Decidable (a.1 < b.1 ∨ (a.1 = b.1 ∧ a.2 ≤ b.2)))

instance : IsTotal (ℤ × String) pairLE where
  total a b := by
    rcases lt_trichotomy a.1 b.1 with h | h | h
    · exact Or.inl (Or.inl h)
    · rcases le_total a.2 b.2 with h2 | h2
      · exact Or.inl (Or.inr ⟨h, h2⟩)
      · exact Or.inr (Or.inr ⟨h.symm, h2⟩)
    · exact Or.inr (Or.inl h)

instance : IsTrans (ℤ × String) pairLE where
  trans a b c hab hbc := by
    rcases hab with h1 | ⟨h1, h1'⟩ <;> rcases hbc with h2 | ⟨h2, h2'⟩
    · exact Or.inl (h1.trans h2)
    · exact Or.inl (h2 ▸ h1)
    · exact Or.inl (h1 ▸ h2)
    · exact Or.inr ⟨h1.trans h2, h1'.trans h2'⟩

/-- `discover_new_data(window_minutes)` against a bronze listing and the
loaded checkpoint: filters keys, keeps objects strictly newer than the
checkpoint (all objects when there is no checkpoint), sorts ascending by
`(last_modified, key)`, and persists the last entry as the new checkpoint
when the result is non-empty.  Mirroring the source, `lookback_cutoff` is
computed from `now` and `window_minutes` but never read.  The returned pairs
correspond one-to-one (in order) to the returned `s3://` URIs. -/
def discoverNewData (now windowMinutes : ℤ) (listing : List S3Object)
    (cp : Option (ℤ × String)) : List (ℤ × String) × Option (ℤ × String) :=
  let _lookbackCutoff := now - windowMinutes * 60
  let discovered := listing.filter fun o =>
    objFilter o &&
      (match cp with
       | some c => isNewer c o.lastModified o.key
       | none => true)
  let sorted := List.insertionSort pairLE
    (discovered.map fun o => (o.lastModified, o.key))
  match sorted.getLast? with
  | some last => (sorted, some last)
  | none => (sorted, cp)

/-- The object list `discover_new_data` returns is the sorted filtered
listing, whatever the checkpoint-persisting branch did. -/
theorem discoverNewData_fst (now w : ℤ) (listing : List S3Object)
    (cp : Option (ℤ × String)) :
    (discoverNewData now w listing cp).1 =
      List.insertionSort pairLE
        ((listing.filter fun o =>
            objFilter o &&
              (match cp with
               | some c => isNewer c o.lastModified o.key
               | none => true)).map
          fun o => (o.lastModified, o.key)) := by
  simp only [discoverNewData]
  split <;> rfl

/-- C3: with a checkpoint present, every pair returned by discovery is
strictly greater than the checkpoint in `(last_modified, key)` lexicographic
order, and the returned sequence is ascending in that order. -/
theorem C3_discovery_after_checkpoint (now w : ℤ) (listing : List S3Object)
    (c : ℤ × String) :
    (∀ x ∈ (discoverNewData now w listing (some c)).1, pairLT c x) ∧
    ((discoverNewData now w listing (some c)).1).Sorted pairLE := by
  rw [discoverNewData_fst]
  constructor
  · intro x hx
    rw [List.mem_insertionSort] at hx
    rcases List.mem_map.mp hx with ⟨o, ho, rfl⟩
    have hnew : isNewer c o.lastModified o.key = true := by
      have h : (objFilter o && isNewer c o.lastModified o.key) = true :=
        (List.mem_filter.mp ho).2
      exact (Bool.and_eq_true_iff.mp h).2
    unfold isNewer at hnew
    rcases Bool.or_eq_true_iff.mp hnew with h | h
    · have h' : c.1 < o.lastModified := by simpa using of_decide_eq_true h
      exact Or.inl h'
    · rcases Bool.and_eq_true_iff.mp h with ⟨h1, h2⟩
      have h1' : o.lastModified = c.1 := by simpa using of_decide_eq_true h1
      have h2' : c.2 < o.key := by simpa using of_decide_eq_true h2
      exact Or.inr ⟨h1'.symm, h2'⟩
  · exact List.sorted_insertionSort pairLE _

/-- C4 (code evidence): on a cold start (no checkpoint), `discover_new_data`
returns an object whose `last_modified` lies far outside the lookback
window — the computed `lookback_cutoff` is never applied — so the claim
"cold-start discovery returns only objects within the window" fails.  Here
`now = 1000000`, `window_minutes = 15`, so the cutoff is `999100`, yet the
object modified at `0` is returned. -/
theorem C4_window_never_applied :
    (discoverNewData 1000000 15 [⟨"a.parquet", 0⟩] none).1 = [(0, "a.parquet")] ∧
    (0 : ℤ) < 1000000 - 15 * 60 := by
  constructor
  · decide
  · decide

/-! ## Gold upsert (`_upsert` inside `update_gold_tables`)

A keyed table row is a pair `(key, payload)`.  `_upsert` concatenates the
existing table with the incoming rollup, sorts by the key columns (stable on
ties), drops duplicate keys keeping the last occurrence, and writes the
result back. -/

/-- The singleton list holding the last element, `[]` for an empty list. -/
def lastList : List α → List α
  | [] => []
  | [x] => [x]
  | _ :: y :: t => lastList (y :: t)

/-- `drop_duplicates(subset=index_cols, keep="last")`: a row is kept exactly
when no later row shares its key, so the last occurrence of each key
survives at its original position. -/
def dedupKeepLast [DecidableEq κ] : List (κ × α) → List (κ × α)
  | [] => []
  | x :: xs =>
      if xs.any (fun y => decide (y.1 = x.1)) then dedupKeepLast xs
      else x :: dedupKeepLast xs

/-- Row comparison by key, the `sort_values(index_cols)` order. -/
def keyLE [LinearOrder κ] (a b : κ × α) : Prop := a.1 ≤ b.1

/-- Strict row comparison by key. -/
def keyLT [LinearOrder κ] (a b : κ × α) : Prop := a.1 < b.1

instance [LinearOrder κ] : DecidableRel (keyLE (κ := κ) (α := α)) := fun a b =>
  inferInstanceAs (Decidable (a.1 ≤ b.1))

instance [LinearOrder κ] : IsTotal (κ × α) keyLE where
  total a b := le_total a.1 b.1

instance [LinearOrder κ] : IsTrans (κ × α) keyLE where
  trans _ _ _ hab hbc := le_trans hab hbc

/-- `sort_values(index_cols)` modelled as a stable sort by key. -/
def sortByKey [LinearOrder κ] (l : List (κ × α)) : List (κ × α) :=
  List.insertionSort keyLE l

/-- `_upsert(path, new_df, index_cols)`: concatenate the existing table with
the incoming rollup, sort by key, drop duplicate keys keeping the last
occurrence. -/
def upsertRows [LinearOrder κ] (existing incoming : List (κ × α)) : List (κ × α) :=
  dedupKeepLast (sortByKey (existing ++ incoming))

/-- The rows of a table carrying the key `k`. -/
def fkey [DecidableEq κ] (k : κ) (l : List (κ × α)) : List (κ × α) :=
  l.filter fun x => decide (x.1 = k)

theorem lastList_cons_of_ne_nil (a : α) (l : List α) (h : l ≠ []) :
    lastList (a :: l) = lastList l := by
  cases l with
  | nil => exact absurd rfl h
  | cons y t => rfl

theorem lastList_append_of_ne_nil (xs : List α) {ys : List α} (h : ys ≠ []) :
    lastList (xs ++ ys) = lastList ys := by
  induction xs with
  | nil => rfl
  | cons a t ih =>
      have ht : t ++ ys ≠ [] := by
        cases ys with
        | nil => exact absurd rfl h
        | cons y u => simp
      rw [List.cons_append, lastList_cons_of_ne_nil _ _ ht, ih]

theorem lastList_eq_nil_or_single (l : List α) :
    lastList l = [] ∨ ∃ a, lastList l = [a] := by
  induction l with
  | nil => exact Or.inl rfl
  | cons x t ih =>
      cases t with
      | nil => exact Or.inr ⟨x, rfl⟩
      | cons y u => exact ih

theorem lastList_of_length_le_one (l : List α) (h : l.length ≤ 1) :
    lastList l = l := by
  cases l with
  | nil => rfl
  | cons x t =>
      cases t with
      | nil => rfl
      | cons y u => simp at h

theorem lastList_idem (l : List α) : lastList (lastList l) = lastList l := by
  rcases lastList_eq_nil_or_single l with h | ⟨a, h⟩ <;> rw [h] <;> rfl

theorem lastList_lastList_append (xs ys : List α) :
    lastList (lastList (xs ++ ys) ++ ys) = lastList (xs ++ ys) := by
  cases ys with
  | nil => rw [List.append_nil, List.append_nil, lastList_idem]
  | cons y t =>
      rw [lastList_append_of_ne_nil xs (by simp),
        lastList_append_of_ne_nil _ (by simp)]

theorem filter_orderedInsert_of_neg {r : α → α → Prop} [DecidableRel r]
    (p : α → Bool) (a : α) (l : List α) (ha : p a = false) :
    (List.orderedInsert r a l).filter p = l.filter p := by
  induction l with
  | nil => simp [List.orderedInsert, ha]
  | cons b t ih =>
      by_cases hr : r a b
      · simp [List.orderedInsert, hr, ha]
      · by_cases hb : p b
        · simp [List.orderedInsert, hr, hb, ih]
        · simp [List.orderedInsert, hr, hb, ih]

theorem filter_orderedInsert_of_pos {r : α → α → Prop} [DecidableRel r]
    (p : α → Bool) (a : α) (l : List α) (ha : p a = true)
    (hskip : ∀ b, ¬ r a b → p b = false) :
    (List.orderedInsert r a l).filter p = a :: l.filter p := by
  induction l with
  | nil => simp [List.orderedInsert, ha]
  | cons b t ih =>
      by_cases hr : r a b
      · simp [List.orderedInsert, hr, ha]
      · have hb : p b = false := hskip b hr
        simp [List.orderedInsert, hr, hb, ih]


theorem fkey_cons_of_eq [DecidableEq κ] {k : κ} {x : κ × α} (l : List (κ × α))
    (h : x.1 = k) : fkey k (x :: l) = x :: fkey k l := by
  unfold fkey
  rw [List.filter_cons_of_pos (by simp [h])]

theorem fkey_cons_of_ne [DecidableEq κ] {k : κ} {x : κ × α} (l : List (κ × α))
    (h : x.1 ≠ k) : fkey k (x :: l) = fkey k l := by
  unfold fkey
  rw [List.filter_cons_of_neg (by simp [h])]

theorem fkey_insertionSort [LinearOrder κ] (k : κ) (l : List (κ × α)) :
    fkey k (List.insertionSort keyLE l) = fkey k l := by
  induction l with
  | nil => rfl
  | cons a t ih =>
      show fkey k (List.orderedInsert keyLE a (List.insertionSort keyLE t)) = _
      by_cases ha : a.1 = k
      · have hskip : ∀ b : κ × α, ¬ keyLE a b →
            (fun x : κ × α => decide (x.1 = k)) b = false := by
          intro b hb
          have hlt : b.1 < a.1 := lt_of_not_le hb
          simp only [decide_eq_false_iff_not]
          intro hbk
          rw [hbk, ha] at hlt
          exact lt_irrefl _ hlt
        unfold fkey at ih ⊢
        rw [filter_orderedInsert_of_pos _ a _ (by simp [ha]) hskip, ih,
          List.filter_cons_of_pos (by simp [ha])]
      · unfold fkey at ih ⊢
        rw [filter_orderedInsert_of_neg _ a _ (by simp [ha]), ih,
          List.filter_cons_of_neg (by simp [ha])]

theorem fkey_dedupKeepLast [DecidableEq κ] (k : κ) (l : List (κ × α)) :
    fkey k (dedupKeepLast l) = lastList (fkey k l) := by
  induction l with
  | nil => rfl
  | cons x xs ih =>
      by_cases hlater : xs.any (fun y => decide (y.1 = x.1)) = true
      · rw [show dedupKeepLast (x :: xs) = dedupKeepLast xs by
          simp [dedupKeepLast, hlater]]
        rw [ih]
        by_cases hx : x.1 = k
        · have hne : fkey k xs ≠ [] := by
            rcases List.any_eq_true.mp hlater with ⟨y, hy, hyk⟩
            have hyk' : y.1 = k := (of_decide_eq_true hyk).trans hx
            have hmem : y ∈ fkey k xs := List.mem_filter.mpr ⟨hy, by simp [hyk']⟩
            intro hnil
            rw [hnil] at hmem
            exact (List.not_mem_nil y) hmem
          rw [fkey_cons_of_eq xs hx, lastList_cons_of_ne_nil _ _ hne]
        · rw [fkey_cons_of_ne xs hx]
      · rw [show dedupKeepLast (x :: xs) = x :: dedupKeepLast xs by
          simp only [dedupKeepLast]
          rw [if_neg hlater]]
        by_cases hx : x.1 = k
        · have hnone : fkey k xs = [] := by
            unfold fkey
            rw [List.filter_eq_nil_iff]
            intro y hy
            simp only [decide_eq_true_eq]
            intro hyk
            exact hlater (List.any_eq_true.mpr ⟨y, hy, by simp [hyk, hx]⟩)
          rw [fkey_cons_of_eq _ hx, fkey_cons_of_eq xs hx, ih, hnone]
          rfl
        · rw [fkey_cons_of_ne _ hx, fkey_cons_of_ne xs hx, ih]

theorem dedupKeepLast_sublist [DecidableEq κ] (l : List (κ × α)) :
    List.Sublist (dedupKeepLast l) l := by
  induction l with
  | nil => exact List.Sublist.refl _
  | cons x xs ih =>
      by_cases hlater : xs.any (fun y => decide (y.1 = x.1)) = true
      · rw [show dedupKeepLast (x :: xs) = dedupKeepLast xs by
          simp [dedupKeepLast, hlater]]
        exact ih.cons x
      · rw [show dedupKeepLast (x :: xs) = x :: dedupKeepLast xs by
          simp only [dedupKeepLast]
          rw [if_neg hlater]]
        exact ih.cons₂ x

theorem nodup_keys_dedupKeepLast [DecidableEq κ] (l : List (κ × α)) :
    ((dedupKeepLast l).map Prod.fst).Nodup := by
  induction l with
  | nil => exact List.nodup_nil
  | cons x xs ih =>
      by_cases hlater : xs.any (fun y => decide (y.1 = x.1)) = true
      · rw [show dedupKeepLast (x :: xs) = dedupKeepLast xs by
          simp [dedupKeepLast, hlater]]
        exact ih
      · rw [show dedupKeepLast (x :: xs) = x :: dedupKeepLast xs by
          simp only [dedupKeepLast]
          rw [if_neg hlater]]
        rw [List.map_cons, List.nodup_cons]
        refine ⟨?_, ih⟩
        intro hmem
        rcases List.mem_map.mp hmem with ⟨y, hy, hyx⟩
        have hy' : y ∈ xs := (dedupKeepLast_sublist xs).mem hy
        exact hlater (List.any_eq_true.mpr ⟨y, hy', by simp [hyx]⟩)

theorem sorted_upsertRows [LinearOrder κ] (G R : List (κ × α)) :
    (upsertRows G R).Sorted keyLE :=
  (List.sorted_insertionSort keyLE (G ++ R)).sublist (dedupKeepLast_sublist _)

theorem strict_upsertRows [LinearOrder κ] (G R : List (κ × α)) :
    (upsertRows G R).Pairwise keyLT := by
  have h1 : (upsertRows G R).Pairwise keyLE := sorted_upsertRows G R
  have h2 : (upsertRows G R).Pairwise (fun a b : κ × α => a.1 ≠ b.1) :=
    List.pairwise_map.mp (nodup_keys_dedupKeepLast _)
  exact (h1.and h2).imp fun h => lt_of_le_of_ne h.1 h.2

theorem fkey_upsertRows [LinearOrder κ] (k : κ) (G R : List (κ × α)) :
    fkey k (upsertRows G R) = lastList (fkey k G ++ fkey k R) := by
  unfold upsertRows sortByKey
  rw [fkey_dedupKeepLast, fkey_insertionSort]
  unfold fkey
  rw [List.filter_append]

theorem strictSorted_ext [LinearOrder κ] (l₁ : List (κ × α)) :
    ∀ l₂ : List (κ × α), l₁.Pairwise keyLT → l₂.Pairwise keyLT →
      (∀ k, fkey k l₁ = fkey k l₂) → l₁ = l₂ := by
  induction l₁ with
  | nil =>
      intro l₂ _ _ h
      cases l₂ with
      | nil => rfl
      | cons b t₂ =>
          exfalso
          have hb := h b.1
          unfold fkey at hb
          rw [List.filter_nil, List.filter_cons_of_pos (by simp)] at hb
          exact List.cons_ne_nil _ _ hb.symm
  | cons a t₁ ih =>
      intro l₂ h₁ h₂ h
      cases l₂ with
      | nil =>
          exfalso
          have ha := h a.1
          unfold fkey at ha
          rw [List.filter_nil, List.filter_cons_of_pos (by simp)] at ha
          exact List.cons_ne_nil _ _ ha
      | cons b t₂ =>
          have ht₁ : fkey a.1 t₁ = [] := by
            unfold fkey
            rw [List.filter_eq_nil_iff]
            intro y hy
            have hlt : a.1 < y.1 := (List.pairwise_cons.mp h₁).1 y hy
            simp only [decide_eq_true_eq]
            intro hk
            rw [hk] at hlt
            exact lt_irrefl _ hlt
          have ht₂ : fkey b.1 t₂ = [] := by
            unfold fkey
            rw [List.filter_eq_nil_iff]
            intro y hy
            have hlt : b.1 < y.1 := (List.pairwise_cons.mp h₂).1 y hy
            simp only [decide_eq_true_eq]
            intro hk
            rw [hk] at hlt
            exact lt_irrefl _ hlt
          by_cases hab : b.1 = a.1
          · have hha := h a.1
            rw [fkey_cons_of_eq t₁ rfl, fkey_cons_of_eq t₂ hab, ht₁] at hha
            have hheads : a = b := (List.cons_eq_cons.mp hha).1
            have htail0 : fkey a.1 t₂ = [] := (List.cons_eq_cons.mp hha).2.symm
            have htails : t₁ = t₂ := by
              apply ih t₂ (List.pairwise_cons.mp h₁).2 (List.pairwise_cons.mp h₂).2
              intro k
              by_cases hk : a.1 = k
              · rw [← hk, ht₁, htail0]
              · have hk' := h k
                rw [fkey_cons_of_ne t₁ hk, fkey_cons_of_ne t₂ (hab ▸ hk)] at hk'
                exact hk'
            rw [hheads, htails]
          · exfalso
            have hA := h a.1
            rw [fkey_cons_of_eq t₁ rfl, fkey_cons_of_ne t₂ hab, ht₁] at hA
            have haMem : a ∈ t₂ := by
              have hm : a ∈ fkey a.1 t₂ := by
                rw [← hA]
                exact List.mem_singleton_self a
              exact (List.mem_filter.mp hm).1
            have hba : b.1 < a.1 := (List.pairwise_cons.mp h₂).1 a haMem
            have hB := h b.1
            rw [fkey_cons_of_ne t₁ (Ne.symm hab), fkey_cons_of_eq t₂ rfl, ht₂] at hB
            have hbMem : b ∈ t₁ := by
              have hm : b ∈ fkey b.1 t₁ := by
                rw [hB]
                exact List.mem_singleton_self b
              exact (List.mem_filter.mp hm).1
            have hab' : a.1 < b.1 := (List.pairwise_cons.mp h₁).1 b hbMem
            exact lt_asymm hba hab'

/-- Applying `_upsert` a second time with the same incoming rollup does not
change the table: keep-last on an unchanged key is a no-op. -/
theorem upsertRows_idem [LinearOrder κ] (G R : List (κ × α)) :
    upsertRows (upsertRows G R) R = upsertRows G R := by
  apply strictSorted_ext _ _ (strict_upsertRows _ _) (strict_upsertRows _ _)
  intro k
  rw [fkey_upsertRows, fkey_upsertRows]
  exact lastList_lastList_append _ _

theorem length_fkey_le_one [DecidableEq κ] (k : κ) (l : List (κ × α))
    (h : (l.map Prod.fst).Nodup) : (fkey k l).length ≤ 1 := by
  induction l with
  | nil => simp [fkey]
  | cons x xs ih =>
      rw [List.map_cons, List.nodup_cons] at h
      by_cases hx : x.1 = k
      · rw [fkey_cons_of_eq xs hx]
        have hnil : fkey k xs = [] := by
          unfold fkey
          rw [List.filter_eq_nil_iff]
          intro y hy
          simp only [decide_eq_true_eq]
          intro hyk
          exact h.1 (List.mem_map.mpr ⟨y, hy, by rw [hyk, ← hx]⟩)
        rw [hnil]
        simp
      · rw [fkey_cons_of_ne xs hx]
        exact ih h.2

/-- C6: for a key present both in the existing gold table and in the
incoming rollup (whose keys are unique, as a groupby result), the merged
table contains exactly one row for that key, and it is the incoming row. -/
theorem C6_upsert_keep_last [LinearOrder κ] (G R : List (κ × α)) (k : κ)
    (hG : ∃ g ∈ G, g.1 = k) (hR : ∃ r ∈ R, r.1 = k)
    (hnd : (R.map Prod.fst).Nodup) :
    fkey k (upsertRows G R) = fkey k R ∧
    (fkey k (upsertRows G R)).length = 1 := by
  obtain ⟨r0, hr0, hr0k⟩ := hR
  have hmem : r0 ∈ fkey k R := List.mem_filter.mpr ⟨hr0, by simp [hr0k]⟩
  have hne : fkey k R ≠ [] := by
    intro hnil
    rw [hnil] at hmem
    exact (List.not_mem_nil r0) hmem
  have hlen : (fkey k R).length = 1 := by
    have hle := length_fkey_le_one k R hnd
    have hpos : 0 < (fkey k R).length := List.length_pos.mpr hne
    omega
  have heq : fkey k (upsertRows G R) = fkey k R := by
    rw [fkey_upsertRows, lastList_append_of_ne_nil _ hne,
      lastList_of_length_le_one _ (by omega)]
  exact ⟨heq, by rw [heq, hlen]⟩

/-! ## Gold aggregation (`update_gold_tables`) -/

/-- One row of a silver batch as read by `update_gold_tables`. -/
structure SilverRow where
  tripId : String
  sourceType : String
  startTime : ℤ
  startStationId : ℚ
  qualityScore : ℚ
  qualityBand : Band
deriving DecidableEq, Repr

/-- Mean of `quality_score` over a group. -/
def meanQ (l : List SilverRow) : ℚ := (l.map SilverRow.qualityScore).sum / l.length

/-- Share of POOR-band rows in a group. -/
def poorShare (l : List SilverRow) : ℚ :=
  ((l.filter fun r => decide (r.qualityBand = Band.POOR)).length : ℚ) / l.length

/-- Sorted distinct group keys, as pandas `groupby` produces them. -/
def groupKeys [LinearOrder κ] [DecidableEq κ] (ks : List κ) : List κ :=
  List.insertionSort (fun a b => a ≤ b) ks.dedup

/-- `df.groupby(key).agg(...)`: one output row per distinct key, aggregated
over the rows of that group. -/
def rollupBy [LinearOrder κ] [DecidableEq κ] (key : SilverRow → κ)
    (agg : List SilverRow → α) (rows : List SilverRow) : List (κ × α) :=
  (groupKeys (rows.map key)).map fun k =>
    (k, agg (rows.filter fun r => decide (key r = k)))

def stationKey (r : SilverRow) : String ×ₗ ℚ := toLex (r.sourceType, r.startStationId)

def hourKey (r : SilverRow) : String ×ₗ ℤ :=
  toLex (r.sourceType, 3600 * Int.fdiv r.startTime 3600)

def dateKey (r : SilverRow) : String ×ₗ ℤ :=
  toLex (r.sourceType, Int.fdiv r.startTime 86400)

/-- `station_status` rollup: trips started and mean quality per
(source_type, start_station_id). -/
def stationRollup (rows : List SilverRow) : List ((String ×ₗ ℚ) × (ℕ × ℚ)) :=
  rollupBy stationKey (fun g => (g.length, meanQ g)) rows

/-- `hourly_usage` rollup: trip count and mean quality per
(source_type, hour-floor of start_time). -/
def hourlyRollup (rows : List SilverRow) : List ((String ×ₗ ℤ) × (ℕ × ℚ)) :=
  rollupBy hourKey (fun g => (g.length, meanQ g)) rows

/-- `quality_trends` rollup: mean quality and POOR share per
(source_type, date of start_time). -/
def trendRollup (rows : List SilverRow) : List ((String ×ₗ ℤ) × (ℚ × ℚ)) :=
  rollupBy dateKey (fun g => (meanQ g, poorShare g)) rows

/-- The three persistent gold tables. -/
structure GoldState where
  stationStatus : List ((String ×ₗ ℚ) × (ℕ × ℚ))
  hourlyUsage : List ((String ×ₗ ℤ) × (ℕ × ℚ))
  qualityTrends : List ((String ×ₗ ℤ) × (ℚ × ℚ))

/-- `update_gold_tables(silver_file)` over explicit state: no-op for an
empty reference or an empty batch, otherwise each of the three rollups is
upserted into its table. -/
def updateGoldTables (silverFile : String) (rows : List SilverRow)
    (g : GoldState) : GoldState :=
  if silverFile = "" then g
  else if rows = [] then g
  else
    ⟨upsertRows g.stationStatus (stationRollup rows),
     upsertRows g.hourlyUsage (hourlyRollup rows),
     upsertRows g.qualityTrends (trendRollup rows)⟩

/-- C7: aggregating the same silver batch twice leaves each of the three
gold tables identical to aggregating it once. -/
theorem C7_gold_idempotent (f : String) (rows : List SilverRow) (g : GoldState) :
    updateGoldTables f rows (updateGoldTables f rows g) =
      updateGoldTables f rows g := by
  unfold updateGoldTables
  by_cases hf : f = ""
  · simp [hf]
  · by_cases hr : rows = []
    · simp [hf, hr]
    · simp only [if_neg hf, if_neg hr]
      congr 1
      · exact upsertRows_idem _ _
      · exact upsertRows_idem _ _
      · exact upsertRows_idem _ _


/-! ## Silver promotion (`promote_to_silver`) -/

/-- The `(date, hour)` partition key derived from a parsed `start_time`
(UTC `strftime` day and hour). -/
def dateHourOf (t : ℤ) : ℤ ×ₗ ℤ :=
  toLex (Int.fdiv t 86400, Int.fdiv (Int.emod t 86400) 3600)

/-- Rows of the staged batch whose `start_time` parsed (`errors="coerce"`
left them non-null), tagged with their partition key; rows with an
unparseable `start_time` get a null key and are dropped by `groupby`. -/
def promoteKeyed (rows : List (Option ℤ × α)) :
    List ((ℤ ×ₗ ℤ) × (Option ℤ × α)) :=
  rows.filterMap fun r => r.1.map fun t => (dateHourOf t, r)

/-- The per-partition writes of `promote_to_silver`: one object per
`(date, hour)` group, holding that group's rows. -/
def promoteWrites (rows : List (Option ℤ × α)) :
    List ((ℤ ×ₗ ℤ) × List (Option ℤ × α)) :=
  (groupKeys ((promoteKeyed rows).map Prod.fst)).map fun k =>
    (k, ((promoteKeyed rows).filter fun x => decide (x.1 = k)).map Prod.snd)

/-- The partition key part of a written silver object path. -/
def partitionPath (dh : ℤ ×ₗ ℤ) : String :=
  "date=" ++ toString (ofLex dh).1 ++ "/hour=" ++ toString (ofLex dh).2

/-- The object-store effects of one `promote_to_silver(staging_path)` call:
the returned reference, the objects written, and the objects deleted. -/
structure PromoteEffects (α : Type) where
  result : String
  writes : List ((ℤ ×ₗ ℤ) × List (Option ℤ × α))
  deletes : List String

/-- `promote_to_silver`: empty reference or empty staged batch short-circuit
with no effects; otherwise one write per `(date, hour)` group of rows with a
parseable `start_time`, then the staging object is deleted, and the last
partition written (or `""` when there is none) is returned. -/
def promoteToSilver (stagingPath : String) (rows : List (Option ℤ × α)) :
    PromoteEffects α :=
  if stagingPath = "" then ⟨"", [], []⟩
  else if rows.isEmpty then ⟨"", [], []⟩
  else
    ⟨((promoteWrites rows).map fun w => partitionPath w.1).getLastD "",
      promoteWrites rows, [stagingPath]⟩

/-- C5: promoting an empty staging reference or an empty staged batch
returns an empty reference and performs zero writes and zero deletes; in
particular the staging object is not deleted. -/
theorem C5_empty_promotion_no_effects {α : Type} (stagingPath : String)
    (rows : List (Option ℤ × α)) (h : stagingPath = "" ∨ rows = []) :
    promoteToSilver stagingPath rows = ⟨"", [], []⟩ := by
  unfold promoteToSilver
  rcases h with h | h
  · rw [if_pos h]
  · by_cases hp : stagingPath = ""
    · rw [if_pos hp]
    · rw [if_neg hp, if_pos (by rw [h]; rfl)]

/-- C10: for a non-empty staged batch, `promote_to_silver` deletes the
staging object unconditionally; when every row's `start_time` fails to
parse, zero partitions are written, the staging object is still deleted,
and the empty reference is returned. -/
theorem C10_nonempty_always_deletes {α : Type} (stagingPath : String)
    (rows : List (Option ℤ × α)) (hp : stagingPath ≠ "") (hr : rows ≠ []) :
    (promoteToSilver stagingPath rows).deletes = [stagingPath] ∧
    ((∀ r ∈ rows, r.1 = none) →
      (promoteToSilver stagingPath rows).writes = [] ∧
      (promoteToSilver stagingPath rows).result = "") := by
  have hne : rows.isEmpty = false := by
    cases rows with
    | nil => exact absurd rfl hr
    | cons x t => rfl
  unfold promoteToSilver
  rw [if_neg hp, if_neg (by rw [hne]; exact Bool.false_ne_true)]
  refine ⟨rfl, ?_⟩
  intro hall
  have hkeyed : promoteKeyed rows = [] := by
    unfold promoteKeyed
    rw [List.filterMap_eq_nil_iff]
    intro r hrr
    rw [hall r hrr]
    rfl
  have hwr : promoteWrites rows = [] := by
    unfold promoteWrites
    rw [hkeyed]
    rfl
  rw [hwr]
  exact ⟨rfl, rfl⟩

/-! ## Historical staging (`src/workflows/historical.py`) -/

/-- One archive manifest entry (`{status, slug, staged_key, updated_at}`). -/
structure ManifestEntry where
  status : String
  slug : String
  stagedKey : Option String
deriving DecidableEq, Repr

/-- The manifest `archives` mapping, an insertion-ordered dictionary. -/
abbrev Manifest := List (String × ManifestEntry)

/-- Dictionary lookup `manifest["archives"].get(name)`. -/
def mlookup : Manifest → String → Option ManifestEntry
  | [], _ => none
  | (k', e) :: t, k => if k' = k then some e else mlookup t k

/-- Dictionary assignment `manifest["archives"][name] = entry`: replaces in
place, appends when absent. -/
def minsert : Manifest → String → ManifestEntry → Manifest
  | [], k, e => [(k, e)]
  | (k', e') :: t, k, e =>
      if k' = k then (k, e) :: t else (k', e') :: minsert t k e

/-- One remote archive as listed by `_list_remote_archives`. -/
structure Archive where
  name : String
  slug : String
deriving DecidableEq, Repr

/-- Outcome of one `_stage_archive` attempt: staged successfully under a
key, produced no non-empty frames, or raised (download/unzip failure). -/
inductive StageRes where
  | ok (stagedKey : String)
  | noFrames
  | err
deriving DecidableEq, Repr

/-- The `entry.get("status") in ("pending", "processed")` skip test of
`validate_historical_batches`. -/
def skipStatus (s : String) : Bool := s = "pending" || s = "processed"

/-- Accumulated state of the discovery loop in
`validate_historical_batches`: the (mutated) manifest, the staged file
keys, the staged archive names, the invalid archive names, and the names
for which `_stage_archive` was invoked (i.e. a download was attempted). -/
structure ValidateState where
  manifest : Manifest
  stagedFiles : List String
  stagedArchives : List String
  invalidArchives : List String
  downloaded : List String
deriving DecidableEq, Repr

/-- The body of `validate_historical_batches` for one archive that was not
skipped: download and stage it, recording the outcome. -/
def tryStage (stage : Archive → StageRes) (acc : ValidateState)
    (a : Archive) : ValidateState :=
  match stage a with
  | .err =>
      ⟨acc.manifest, acc.stagedFiles, acc.stagedArchives,
        acc.invalidArchives ++ [a.name], acc.downloaded ++ [a.name]⟩
  | .noFrames =>
      ⟨acc.manifest, acc.stagedFiles, acc.stagedArchives,
        acc.invalidArchives, acc.downloaded ++ [a.name]⟩
  | .ok key =>
      ⟨minsert acc.manifest a.name ⟨"pending", a.slug, some key⟩,
        acc.stagedFiles ++ [key], acc.stagedArchives ++ [a.name],
        acc.invalidArchives, acc.downloaded ++ [a.name]⟩

/-- The guard `entry and entry.get("status") in ("pending", "processed")`
of the discovery loop. -/
def shouldSkip (m : Manifest) (name : String) : Bool :=
  match mlookup m name with
  | some e => skipStatus e.status
  | none => false

/-- One iteration of the discovery loop: an archive whose manifest entry is
`pending` or `processed` is skipped entirely. -/
def validateStep (stage : Archive → StageRes) (acc : ValidateState)
    (a : Archive) : ValidateState :=
  if shouldSkip acc.manifest a.name then acc else tryStage stage acc a

/-- The discovery loop of `validate_historical_batches` over the remote
archive listing, starting from the loaded manifest. -/
def validatePass (stage : Archive → StageRes) (m : Manifest)
    (remote : List Archive) : ValidateState :=
  remote.foldl (validateStep stage) ⟨m, [], [], [], []⟩

theorem mlookup_minsert_ne (m : Manifest) (k k' : String) (e : ManifestEntry)
    (h : k ≠ k') : mlookup (minsert m k e) k' = mlookup m k' := by
  induction m with
  | nil =>
      show (if k = k' then some e else none) = none
      rw [if_neg h]
  | cons x t ih =>
      show mlookup (if x.1 = k then (k, e) :: t else x :: minsert t k e) k' = _
      by_cases hx : x.1 = k
      · rw [if_pos hx]
        show (if k = k' then some e else mlookup t k') = _
        rw [if_neg h]
        show _ = mlookup (x :: t) k'
        show _ = if x.1 = k' then some x.2 else mlookup t k'
        rw [if_neg (hx ▸ h)]
      · rw [if_neg hx]
        show (if x.1 = k' then some x.2 else mlookup (minsert t k e) k') = _
        show _ = if x.1 = k' then some x.2 else mlookup t k'
        by_cases hx' : x.1 = k'
        · rw [if_pos hx', if_pos hx']
        · rw [if_neg hx', if_neg hx', ih]

theorem tryStage_preserves (stage : Archive → StageRes) (acc : ValidateState)
    (a : Archive) (name : String) (e : ManifestEntry) (ha : a.name ≠ name)
    (hl : mlookup acc.manifest name = some e)
    (hd : name ∉ acc.downloaded) (hst : name ∉ acc.stagedArchives) :
    mlookup (tryStage stage acc a).manifest name = some e ∧
    name ∉ (tryStage stage acc a).downloaded ∧
    name ∉ (tryStage stage acc a).stagedArchives := by
  have hmemd : name ∉ acc.downloaded ++ [a.name] := by
    intro hmem
    rcases List.mem_append.mp hmem with h | h
    · exact hd h
    · exact ha (List.mem_singleton.mp h).symm
  have hmems : name ∉ acc.stagedArchives ++ [a.name] := by
    intro hmem
    rcases List.mem_append.mp hmem with h | h
    · exact hst h
    · exact ha (List.mem_singleton.mp h).symm
  unfold tryStage
  cases stage a with
  | err => exact ⟨hl, hmemd, hst⟩
  | noFrames => exact ⟨hl, hmemd, hst⟩
  | ok key =>
      refine ⟨?_, hmemd, hmems⟩
      rw [mlookup_minsert_ne _ _ _ _ ha]
      exact hl

theorem validateStep_preserves (stage : Archive → StageRes)
    (acc : ValidateState) (a : Archive) (name : String) (e : ManifestEntry)
    (hl : mlookup acc.manifest name = some e) (hs : skipStatus e.status = true)
    (hd : name ∉ acc.downloaded) (hst : name ∉ acc.stagedArchives) :
    mlookup (validateStep stage acc a).manifest name = some e ∧
    name ∉ (validateStep stage acc a).downloaded ∧
    name ∉ (validateStep stage acc a).stagedArchives := by
  by_cases ha : a.name = name
  · have hskip : shouldSkip acc.manifest a.name = true := by
      unfold shouldSkip
      rw [ha, hl]
      exact hs
    unfold validateStep
    rw [if_pos hskip]
    exact ⟨hl, hd, hst⟩
  · unfold validateStep
    by_cases hsk : shouldSkip acc.manifest a.name = true
    · rw [if_pos hsk]
      exact ⟨hl, hd, hst⟩
    · rw [if_neg hsk]
      exact tryStage_preserves stage acc a name e ha hl hd hst

theorem validateFold_preserves (stage : Archive → StageRes)
    (remote : List Archive) :
    ∀ (acc : ValidateState) (name : String) (e : ManifestEntry),
      mlookup acc.manifest name = some e → skipStatus e.status = true →
      name ∉ acc.downloaded → name ∉ acc.stagedArchives →
      mlookup (remote.foldl (validateStep stage) acc).manifest name = some e ∧
      name ∉ (remote.foldl (validateStep stage) acc).downloaded ∧
      name ∉ (remote.foldl (validateStep stage) acc).stagedArchives := by
  induction remote with
  | nil => exact fun acc name e hl _ hd hst => ⟨hl, hd, hst⟩
  | cons a t ih =>
      intro acc name e hl hs hd hst
      rw [List.foldl_cons]
      obtain ⟨hl', hd', hst'⟩ := validateStep_preserves stage acc a name e hl hs hd hst
      exact ih _ name e hl' hs hd' hst'

/-- C8: an archive whose manifest entry is `pending` or `processed` is
skipped by a whole `validate_historical_batches` discovery pass, whatever
the remote listing contains: it is never downloaded again, never re-staged,
and its manifest entry is left untouched (so it stays skipped on every
later pass). -/
theorem C8_processed_skipped_forever (stage : Archive → StageRes)
    (m : Manifest) (remote : List Archive) (name : String) (e : ManifestEntry)
    (hl : mlookup m name = some e)
    (hs : e.status = "pending" ∨ e.status = "processed") :
    name ∉ (validatePass stage m remote).downloaded ∧
    name ∉ (validatePass stage m remote).stagedArchives ∧
    mlookup (validatePass stage m remote).manifest name = some e := by
  have hs' : skipStatus e.status = true := by
    unfold skipStatus
    rcases hs with h | h <;> rw [h] <;> rfl
  obtain ⟨h1, h2, h3⟩ := validateFold_preserves stage remote ⟨m, [], [], [], []⟩
    name e hl hs' (List.not_mem_nil name) (List.not_mem_nil name)
  exact ⟨h2, h3, h1⟩

/-! ## Archive normalization (`_normalize_csv`, `_stage_archive`) -/

/-- One CSV member of an archive: the file stem and the raw rows, each with
its trip-id column value (if any) and the rest of the row abstracted. -/
structure CsvFile (α : Type) where
  stem : String
  rows : List (Option String × α)

/-- Trip-id resolution of `_normalize_csv`: `astype(str)` turns nulls into
`"nan"`, which `replace("nan", pd.NA)` nulls again, and nulls fall back to
`f"{csv_path.stem}_{idx}"`. -/
def resolveTripId (stem : String) (idx : ℕ) (given : Option String) : String :=
  match given with
  | some s => if s = "nan" then stem ++ "_" ++ toString idx else s
  | none => stem ++ "_" ++ toString idx

/-- The normalized frame before the final dedup: each row keyed by its
resolved trip id. -/
def assignIds (c : CsvFile α) : List (String × α) :=
  c.rows.enum.map fun p => (resolveTripId c.stem p.1 p.2.1, p.2.2)

/-- `_normalize_csv`: an empty frame is returned as is; otherwise rows are
keyed by trip id and `drop_duplicates(subset=["trip_id"], keep="last")` is
applied.  The remaining per-column normalization does not affect row
identity or multiplicity and is carried opaquely in the payload. -/
def normalizeCsv (c : CsvFile α) : List (String × α) :=
  if c.rows.isEmpty then [] else dedupKeepLast (assignIds c)

/-- `_stage_archive`: normalize every extracted CSV member, drop empty
frames, and concatenate the survivors into the staged dataset (`None` when
nothing non-empty remains). -/
def stageArchive (csvs : List (CsvFile α)) : Option (List (String × α)) :=
  let frames := (csvs.map normalizeCsv).filter fun f => !f.isEmpty
  if frames.isEmpty then none else some frames.join

/-- C9 (counterexample): an archive with two CSV members that share the
trip id `"a"` stages a dataset containing that trip id twice —
`_stage_archive` concatenates the per-member frames without a cross-member
dedup, so "at most one row per trip_id per staged archive" is false. -/
theorem C9_cross_member_duplicate :
    stageArchive [⟨"m1", [(some "a", (0 : ℕ))]⟩, ⟨"m2", [(some "a", 1)]⟩] =
      some [("a", 0), ("a", 1)] ∧
    ¬ ((([("a", (0 : ℕ)), ("a", 1)] : List (String × ℕ)).map Prod.fst).Nodup) := by
  constructor
  · rfl
  · decide

/-- C9 (amended): within each single CSV member, duplicate trip ids are
collapsed keeping the last occurrence — the normalized member has no
duplicate trip ids and, for every id, retains exactly the last matching
row; duplicates spread across different members of one archive are not
collapsed. -/
theorem C9_per_member_keep_last {α : Type} (c : CsvFile α) (k : String) :
    ((normalizeCsv c).map Prod.fst).Nodup ∧
    fkey k (normalizeCsv c) = lastList (fkey k (assignIds c)) := by
  unfold normalizeCsv
  by_cases h : c.rows.isEmpty = true
  · rw [if_pos h]
    have hrows : c.rows = [] := by
      cases hc : c.rows with
      | nil => rfl
      | cons x t => rw [hc] at h; exact absurd h (by simp)
    have hassign : assignIds c = [] := by
      unfold assignIds
      rw [hrows]
      rfl
    rw [hassign]
    exact ⟨List.nodup_nil, rfl⟩
  · rw [if_neg h]
    exact ⟨nodup_keys_dedupKeepLast _, fkey_dedupKeepLast k _⟩


/-! ## Concrete witnesses -/

/-- Witness for C2 at score 95, comparison score 96, deductions 10 and 20. -/
theorem C2_band_total_monotone_witness :
    ((scoreBand 95 = .EXCELLENT ↔ 90 ≤ (95 : ℚ)) ∧
     (scoreBand 95 = .GOOD ↔ 75 ≤ (95 : ℚ) ∧ (95 : ℚ) < 90) ∧
     (scoreBand 95 = .FAIR ↔ 60 ≤ (95 : ℚ) ∧ (95 : ℚ) < 75) ∧
     (scoreBand 95 = .POOR ↔ (95 : ℚ) < 60)) ∧
    ((95 : ℚ) ≤ 96 → (scoreBand 95).rank ≤ (scoreBand 96).rank) ∧
    ((10 : ℕ) ≤ 20 →
      (scoreBand (normalizedScore 20 * 100)).rank ≤
        (scoreBand (normalizedScore 10 * 100)).rank) :=
  C2_band_total_monotone 95 96 10 20 (by norm_num) (by norm_num)

/-- Witness for C5 on an empty staging reference and empty batch. -/
theorem C5_empty_promotion_no_effects_witness :
    promoteToSilver "" ([] : List (Option ℤ × ℕ)) = ⟨"", [], []⟩ :=
  C5_empty_promotion_no_effects "" [] (Or.inl rfl)

/-- Witness for C6: key 1 exists with payload 10, the incoming rollup
carries payload 20, and the merged table keeps exactly the incoming row. -/
theorem C6_upsert_keep_last_witness :
    fkey 1 (upsertRows [((1 : ℤ), (10 : ℤ))] [(1, 20)]) =
      fkey 1 [((1 : ℤ), (20 : ℤ))] ∧
    (fkey 1 (upsertRows [((1 : ℤ), (10 : ℤ))] [(1, 20)])).length = 1 :=
  C6_upsert_keep_last [(1, 10)] [(1, 20)] 1 ⟨(1, 10), by decide, rfl⟩
    ⟨(1, 20), by decide, rfl⟩ (by decide)

/-- Witness for C8: a one-archive remote listing whose archive is already
`processed` in the manifest. -/
theorem C8_processed_skipped_forever_witness :
    "a1" ∉ (validatePass (fun _ => .ok "k")
        [("a1", ⟨"processed", "a1", none⟩)] [⟨"a1", "a1"⟩]).downloaded ∧
    "a1" ∉ (validatePass (fun _ => .ok "k")
        [("a1", ⟨"processed", "a1", none⟩)] [⟨"a1", "a1"⟩]).stagedArchives ∧
    mlookup (validatePass (fun _ => .ok "k")
        [("a1", ⟨"processed", "a1", none⟩)] [⟨"a1", "a1"⟩]).manifest "a1" =
      some ⟨"processed", "a1", none⟩ :=
  C8_processed_skipped_forever (fun _ => .ok "k")
    [("a1", ⟨"processed", "a1", none⟩)] [⟨"a1", "a1"⟩] "a1"
    ⟨"processed", "a1", none⟩ rfl (Or.inr rfl)

/-- Witness for C10: a one-row staged batch whose `start_time` is null. -/
theorem C10_nonempty_always_deletes_witness :
    (promoteToSilver "s" [((none : Option ℤ), (0 : ℕ))]).deletes = ["s"] ∧
    ((∀ r ∈ [((none : Option ℤ), (0 : ℕ))], r.1 = none) →
      (promoteToSilver "s" [((none : Option ℤ), (0 : ℕ))]).writes = [] ∧
      (promoteToSilver "s" [((none : Option ℤ), (0 : ℕ))]).result = "") :=
  C10_nonempty_always_deletes "s" [(none, 0)] (by decide) (by decide)

end BikeDQ
